import Mathlib

/-!
Shallow embedding of the data-transformation core of
`src/index.tsx` (the `parseAndOrganizeData` function, lines 61-216),
together with the JavaScript primitives it relies on
(`String.prototype.split`, `String.prototype.trim`, `parseInt`,
`parseFloat`, `Map`/object insertion-order semantics, stable
`Array.prototype.sort`, `String(x)` rendering).

Numbers are modelled as exact rationals (`JsNum`, an explicit
numerator/denominator pair, with `JsNum.toRat` giving its value in ℚ);
IEEE-754 binary64 rounding, the `Infinity` literal and `NaN` payloads
are outside the model: `jsParseFloat` returns `none` exactly where the
source's `parseFloat` produces `NaN` (and for the `Infinity` literal,
which no verified statement touches).  JavaScript objects and `Map`s
are modelled as insertion-ordered association lists (`alGet`/`alSet`):
`set` overwrites in place, fresh keys are appended, iteration follows
list order, matching the source's exclusively non-numeric string keys.
-/

/-- JavaScript `s.split(sep)` for a one-character separator:
always returns at least one (possibly empty) piece. -/
def splitOnChar (c : Char) : List Char → List (List Char)
  | [] => [[]]
  | x :: xs =>
    let r := splitOnChar c xs
    if x = c then [] :: r
    else
      match r with
      | [] => [[x]]
      | y :: ys => (x :: y) :: ys

/-- JavaScript `s.trim()` (whitespace set approximated by `Char.isWhitespace`). -/
def jsTrim (s : String) : String :=
  String.mk (((s.data.dropWhile Char.isWhitespace).reverse.dropWhile Char.isWhitespace).reverse)

/-- Decimal digit run to a natural number. -/
def digitsToNat (ds : List Char) : Nat :=
  ds.foldl (fun n c => n * 10 + (c.toNat - 48)) 0

/-- JavaScript `parseInt(s, 10)`: skip leading whitespace, optional sign,
then the longest run of decimal digits; `none` models `NaN` (no digits). -/
def jsParseInt (s : String) : Option Int :=
  let cs := s.data.dropWhile Char.isWhitespace
  let sgn : Int := match cs with | '-' :: _ => -1 | _ => 1
  let cs1 := match cs with | '-' :: t => t | '+' :: t => t | _ => cs
  let ds := cs1.takeWhile Char.isDigit
  if ds.isEmpty then none else some (sgn * (digitsToNat ds : Int))

/-- A JavaScript number, modelled as an exact fraction (see module comment). -/
structure JsNum where
  num : Int
  den : Nat
deriving DecidableEq, Repr

/-- The JavaScript number `0`. -/
def jsZero : JsNum := ⟨0, 1⟩

/-- JavaScript `+` on numbers (exact; no binary64 rounding in the model). -/
def JsNum.add (a b : JsNum) : JsNum :=
  ⟨a.num * (b.den : Int) + b.num * (a.den : Int), a.den * b.den⟩

/-- The rational value of a `JsNum`. -/
def JsNum.toRat (a : JsNum) : ℚ := (a.num : ℚ) / (a.den : ℚ)

/-- JavaScript `parseFloat(s)`: skip leading whitespace, optional sign,
longest prefix of the form `digits [. digits] [e/E [sign] digits]` with at
least one digit in the mantissa; `none` models `NaN`. -/
def jsParseFloat (s : String) : Option JsNum :=
  let cs := s.data.dropWhile Char.isWhitespace
  let sgn : Int := match cs with | '-' :: _ => -1 | _ => 1
  let cs1 := match cs with | '-' :: t => t | '+' :: t => t | _ => cs
  let intDigits := cs1.takeWhile Char.isDigit
  let cs2 := cs1.dropWhile Char.isDigit
  let fracDigits := match cs2 with | '.' :: t => t.takeWhile Char.isDigit | _ => []
  let cs3 := match cs2 with | '.' :: t => t.dropWhile Char.isDigit | _ => cs2
  if intDigits.isEmpty ∧ fracDigits.isEmpty then none
  else
    let mant : Nat := digitsToNat (intDigits ++ fracDigits)
    let exp : Int :=
      match cs3 with
      | e :: t =>
        if e = 'e' ∨ e = 'E' then
          let esgn : Int := match t with | '-' :: _ => -1 | _ => 1
          let t1 := match t with | '-' :: u => u | '+' :: u => u | _ => t
          let eds := t1.takeWhile Char.isDigit
          if eds.isEmpty then 0 else esgn * (digitsToNat eds : Int)
        else 0
      | [] => 0
    let e10 : Int := exp - (fracDigits.length : Int)
    if 0 ≤ e10 then some ⟨sgn * (mant : Int) * (10 : Int) ^ e10.toNat, 1⟩
    else some ⟨sgn * (mant : Int), (10 : Nat) ^ (-e10).toNat⟩

/-- Least `k` with `d ∣ 10 ^ k`, when one exists (i.e. `d` has only 2 and 5
as prime factors); searching up to `d` suffices. -/
def decExp (d : Nat) : Option Nat :=
  (List.range (d + 1)).find? (fun k => 10 ^ k % d = 0)

/-- Drop trailing `'0'` characters. -/
def stripTrailingZeros (ds : List Char) : List Char :=
  (ds.reverse.dropWhile (fun c => c = '0')).reverse

/-- Left-pad with `'0'` up to length `k`. -/
def padLeftZeros (ds : List Char) (k : Nat) : List Char :=
  List.replicate (k - ds.length) '0' ++ ds

/-- JavaScript `String(x)` for a number: reduce the fraction, render an
integer directly, otherwise a finite decimal expansion.  Every number a
binary64 float can hold has, in lowest terms, a denominator dividing a power
of ten, so for parser-produced values the fraction fallback is unreachable
(exponential notation for extreme magnitudes is outside the model). -/
def renderNum (q : JsNum) : String :=
  let g := Nat.gcd q.num.natAbs q.den
  if g = 0 then "NaN"
  else
    let n : Nat := q.num.natAbs / g
    let d : Nat := q.den / g
    let sgn := if q.num < 0 then "-" else ""
    if d = 1 then sgn ++ toString n
    else
      match decExp d with
      | some k =>
        let scaled := n * 10 ^ k / d
        let ip := scaled / 10 ^ k
        let fp := scaled % 10 ^ k
        sgn ++ toString ip ++ "." ++
          String.mk (stripTrailingZeros (padLeftZeros (Nat.toDigits 10 fp) k))
      | none => sgn ++ toString n ++ "/" ++ toString d

/-- Insert `x` into `l` before the first element `y` with `¬ le x y`.
Folding this over a list gives a stable sort. -/
def insertLe {α : Type} (le : α → α → Bool) (x : α) : List α → List α
  | [] => [x]
  | y :: ys => if le x y then x :: y :: ys else y :: insertLe le x ys

/-- Stable sort by the boolean relation `le`; models the (since ES2019
mandatorily stable) JavaScript `Array.prototype.sort`. -/
def insertionSort {α : Type} (le : α → α → Bool) : List α → List α
  | [] => []
  | x :: xs => insertLe le x (insertionSort le xs)

/-- Lookup in an insertion-ordered association list (JS object / `Map` read). -/
def alGet {κ α : Type} [DecidableEq κ] : List (κ × α) → κ → Option α
  | [], _ => none
  | p :: rest, k => if p.1 = k then some p.2 else alGet rest k

/-- Write to an insertion-ordered association list: overwrite in place if the
key is present, else append (JS object / `Map` write). -/
def alSet {κ α : Type} [DecidableEq κ] : List (κ × α) → κ → α → List (κ × α)
  | [], k, v => [(k, v)]
  | p :: rest, k, v => if p.1 = k then (k, v) :: rest else p :: alSet rest k v

/-- `getSortableHour` (src/index.tsx lines 65-69): the empty string ranks 0;
otherwise the text before the first `:` is `parseInt`ed and hours below 6 are
pushed past 23.  `none` models the `NaN` produced for an unparsable hour. -/
def getSortableHour (timeRangeString : String) : Option Int :=
  if timeRangeString = "" then some 0
  else
    (jsParseInt (String.mk ((splitOnChar ':' timeRangeString.data).headD []))).map
      (fun hour => if hour < 6 then hour + 24 else hour)

/-- The comparator `getSortableHour(a) - getSortableHour(b)` handed to
`Array.prototype.sort`; a `NaN` comparator result is treated as `+0` per the
ECMAScript `SortCompare` specification. -/
def hourCmp (a b : String) : Int :=
  match getSortableHour a, getSortableHour b with
  | some x, some y => x - y
  | _, _ => 0

/-- `hourCmp` as a boolean "comes no later than" relation for the stable sort. -/
def hourLe (a b : String) : Bool := hourCmp a b ≤ 0

/-- `GraphData` (src/index.tsx lines 8-11) extended with the `tuples`
accumulator the source temporarily attaches to the same object (lines
102-104) and deletes in post-processing (line 210); after
`parseAndOrganizeData` finishes, `tuples` is always `[]`. -/
structure GraphData where
  labels : List String
  values : List JsNum
  tuples : List (String × JsNum)
deriving DecidableEq, Repr

/-- A fresh `{ labels: [], values: [] }` graph (line 100). -/
def emptyGraphData : GraphData := ⟨[], [], []⟩

/-- One `{ timeRange, columns }` row (src/index.tsx lines 14, 76). -/
structure TableRow where
  timeRange : String
  columns : List String
deriving DecidableEq, Repr

/-- One entry of the temporary `rawTableData` (src/index.tsx lines 72-79):
the key index captured from the first record seen for the table, plus the
collected rows. -/
structure RawTable where
  keyIndex : Int
  rows : List TableRow
deriving DecidableEq, Repr

/-- `PivotTableData` (src/index.tsx lines 17-20). -/
structure PivotTableData where
  headers : List String
  rows : List (List String)
deriving DecidableEq, Repr

/-- `ItemData` (src/index.tsx lines 22-26); a `StandardTableData` is just its
`rows` field, so `standardTables` maps table names directly to row lists. -/
structure ItemData where
  graphs : List (String × GraphData)
  standardTables : List (String × List TableRow)
  pivotTables : List (String × PivotTableData)
deriving DecidableEq, Repr

/-- `{ graphs: {}, standardTables: {}, pivotTables: {} }` (line 89). -/
def emptyItem : ItemData := ⟨[], [], []⟩

/-- `ProcessedResults` (src/index.tsx lines 28-30). -/
abbrev Results : Type := List (String × ItemData)

/-- State threaded through the per-line loop: the report being built and the
temporary `rawTableData`. -/
structure ParseState where
  processed : Results
  rawTableData : List (String × List (String × RawTable))

/-- Field access after `line.split(';')` / array destructuring; the default
is never reached at the indices the source touches (guarded by length checks). -/
def fieldAt (parts : List String) (i : Nat) : String := (parts[i]?).getD ""

/-- `line.split(';')` (line 82). -/
def splitFields (line : String) : List String :=
  (splitOnChar ';' line.data).map String.mk

/-- `rawData.split('\n').filter(line => line.trim() !== '')` (line 63). -/
def linesOf (rawData : String) : List String :=
  ((splitOnChar '\n' rawData.data).map String.mk).filter (fun l => jsTrim l ≠ "")

/-- `initializeItem` (src/index.tsx lines 87-91): create the item entry with
all three categories empty if it is not present yet. -/
def initItem (processed : Results) (itemName : String) : Results :=
  if (alGet processed itemName).isSome then processed
  else alSet processed itemName emptyItem

/-- Body of the `rawLines.forEach` loop (src/index.tsx lines 81-119). -/
def processLine (st : ParseState) (line : String) : ParseState :=
  let parts := splitFields line
  if parts.length < 5 then st
  else
    let timeRange := fieldAt parts 0
    let itemName := fieldAt parts 1
    let dataType := fieldAt parts 2
    let processed := initItem st.processed itemName
    if dataType = "numero" ∧ parts.length = 5 then
      let dataName := fieldAt parts 3
      let valueStr := fieldAt parts 4
      match jsParseFloat valueStr with
      | none => { st with processed := processed }
      | some value =>
        let item := (alGet processed itemName).getD emptyItem
        let g := (alGet item.graphs dataName).getD emptyGraphData
        let g1 := { g with tuples := g.tuples ++ [(timeRange, value)] }
        { st with
            processed := alSet processed itemName
              { item with graphs := alSet item.graphs dataName g1 } }
    else if dataType = "tabla" ∧ 6 ≤ parts.length then
      let tableName := fieldAt parts 3
      let keyIndexStr := fieldAt parts 4
      let columns := parts.drop 5
      match jsParseInt keyIndexStr with
      | none => { st with processed := processed }
      | some keyIndex =>
        if keyIndex < 1 then { st with processed := processed }
        else
          let itemTables := (alGet st.rawTableData itemName).getD []
          let tbl := (alGet itemTables tableName).getD ⟨keyIndex, []⟩
          let tbl1 := { tbl with rows := tbl.rows ++ [⟨timeRange, columns⟩] }
          { st with
              processed := processed,
              rawTableData := alSet st.rawTableData itemName
                (alSet itemTables tableName tbl1) }
    else { st with processed := processed }

/-- A JavaScript value as it occurs in the heterogeneous `newRow` array
(line 185): a string, a number, or `undefined` (an out-of-range index). -/
inductive JsVal where
  | str (s : String)
  | num (q : JsNum)
  | undef
deriving DecidableEq, Repr

/-- `String(x)` over the three value shapes of `newRow.map(String)` (line 191). -/
def jsValToString : JsVal → String
  | .str s => s
  | .num q => renderNum q
  | .undef => "undefined"

/-- `parseFloat(valueStr) || 0` (line 148): an unparsable (or out-of-range)
value column contributes `0`. -/
def jsParseFloatOr0 (o : Option String) : JsNum :=
  match o with
  | none => jsZero
  | some s => (jsParseFloat s).getD jsZero

/-- `row.columns.filter((_, idx) => idx !== groupingColumnIndex && idx !==
valueColumnIndex)` (line 150), tracked with its running index. -/
def otherColsAux (gIdx vIdx : Nat) : Nat → List String → List String
  | _, [] => []
  | i, c :: cs =>
    if i = gIdx ∨ i = vIdx then otherColsAux gIdx vIdx (i + 1) cs
    else c :: otherColsAux gIdx vIdx (i + 1) cs

/-- The passthrough columns of one row. -/
def otherCols (gIdx vIdx : Nat) (columns : List String) : List String :=
  otherColsAux gIdx vIdx 0 columns

/-- Per-key accumulator of the pivot aggregation (src/index.tsx lines 136-140). -/
structure AggEntry where
  otherKeyColumns : List String
  total : JsNum
  timeData : List (String × JsNum)
deriving DecidableEq, Repr

/-- Body of the `rows.forEach` aggregation loop (src/index.tsx lines 144-163):
extend the time-range set, create the key's entry on first sight (capturing
its passthrough columns once), add the parsed value to the running total and
to the key's cell for this row's time range.  Keys are `Option String`
because `row.columns[groupingColumnIndex]` is `undefined` (`none`) when a
ragged row is shorter than the first one. -/
def addTimeRange (allTR : List String) (tr : String) : List String :=
  if tr ∈ allTR then allTR else allTR ++ [tr]

/-- Lines 152-158: create the key's accumulator entry on first sight,
capturing the passthrough columns of that first row. -/
def ensureEntry (agg : List (Option String × AggEntry)) (gv : Option String)
    (other : List String) : List (Option String × AggEntry) :=
  if (alGet agg gv).isSome then agg else alSet agg gv ⟨other, jsZero, []⟩

/-- Lines 160-162: add the row's value to the entry's running total and to
its cell for the row's time range. -/
def bumpEntry (e : AggEntry) (tr : String) (v : JsNum) : AggEntry :=
  { e with
      total := e.total.add v,
      timeData := alSet e.timeData tr (((alGet e.timeData tr).getD jsZero).add v) }

def pivotRowStep (gIdx vIdx : Nat)
    (acc : List (Option String × AggEntry) × List String) (row : TableRow) :
    List (Option String × AggEntry) × List String :=
  let allTR := addTimeRange acc.2 row.timeRange
  let groupingValue := row.columns[gIdx]?
  let value := jsParseFloatOr0 row.columns[vIdx]?
  let other := otherCols gIdx vIdx row.columns
  let agg1 := ensureEntry acc.1 groupingValue other
  let e := (alGet agg1 groupingValue).getD ⟨other, jsZero, []⟩
  (alSet agg1 groupingValue (bumpEntry e row.timeRange value), allTR)

/-- The `for` loop of lines 177-183: positional text columns with the
grouping value reinserted at its own index and the passthrough values (or
`''` past their end) elsewhere, driven by the mutable `otherKeyColumnIndex`. -/
def textColsAux (gIdx : Nat) (gv : JsVal) (other : List String) :
    Nat → Nat → Nat → List JsVal
  | _, _, 0 => []
  | i, counter, rem + 1 =>
    if i = gIdx then gv :: textColsAux gIdx gv other (i + 1) counter rem
    else
      JsVal.str ((other[counter]?).getD "") ::
        textColsAux gIdx gv other (i + 1) (counter + 1) rem

/-- The `textColumns` array for one key. -/
def buildTextColumns (gIdx : Nat) (gv : JsVal) (other : List String)
    (numText : Nat) : List JsVal :=
  textColsAux gIdx gv other 0 0 numText

/-- The per-table pivoting body (src/index.tsx lines 124-198): `none` when
the table is skipped (no rows, or the 0-based grouping index reaches the
value column or is negative), otherwise the emitted headers and rows. -/
def buildPivot (tbl : RawTable) : Option PivotTableData :=
  match tbl.rows with
  | [] => none
  | r0 :: _ =>
    let groupingColumnIndexZ : Int := tbl.keyIndex - 1
    let valueColumnIndexZ : Int := (r0.columns.length : Int) - 1
    if valueColumnIndexZ ≤ groupingColumnIndexZ ∨ groupingColumnIndexZ < 0 then none
    else
      let gIdx := groupingColumnIndexZ.toNat
      let vIdx := valueColumnIndexZ.toNat
      let acc := tbl.rows.foldl (pivotRowStep gIdx vIdx) ([], [])
      let sortedTimeRanges := insertionSort hourLe acc.2
      let numTextColumns := vIdx
      let textColumnHeaders :=
        (List.range numTextColumns).map (fun i => "Column " ++ toString (i + 1))
      let finalHeaders := textColumnHeaders ++ ["Total"] ++ sortedTimeRanges
      let pivotedRows := acc.1.map (fun p =>
        let gv : JsVal := match p.1 with | some s => .str s | none => .undef
        let textColumns := buildTextColumns gIdx gv p.2.otherKeyColumns numTextColumns
        let newRow := textColumns ++ [JsVal.num p.2.total] ++
          sortedTimeRanges.map (fun tr =>
            JsVal.num ((alGet p.2.timeData tr).getD jsZero))
        newRow.map jsValToString)
      some ⟨finalHeaders, pivotedRows⟩

/-- Store one successful pivot under its item and table name (lines 194-198);
a skipped table writes nothing. -/
def applyPivot (processed : Results) (itemName tableName : String)
    (tbl : RawTable) : Results :=
  match buildPivot tbl with
  | none => processed
  | some pt =>
    let d := (alGet processed itemName).getD emptyItem
    alSet processed itemName
      { d with pivotTables := alSet d.pivotTables tableName pt }

/-- The nested `for ... in rawTableData` pivoting loops (lines 122-200). -/
def pivotPhase (processed : Results)
    (raw : List (String × List (String × RawTable))) : Results :=
  raw.foldl
    (fun pr p => p.2.foldl (fun pr2 q => applyPivot pr2 p.1 q.1 q.2) pr)
    processed

/-- Post-processing of one graph (src/index.tsx lines 205-211): stable-sort
the accumulated tuples by the hour comparator, split into `labels`/`values`,
delete the accumulator.  (The source's `if (graphData.tuples)` guard always
holds for a graph the parse loop created.) -/
def finalizeGraph (g : GraphData) : GraphData :=
  let sorted := insertionSort (fun a b => hourLe a.1 b.1) g.tuples
  ⟨sorted.map Prod.fst, sorted.map Prod.snd, []⟩

/-- Post-processing of one item: every one of its graphs is finalized. -/
def finalizeItem (d : ItemData) : ItemData :=
  { d with graphs := d.graphs.map (fun q => (q.1, finalizeGraph q.2)) }

/-- The graph post-processing loops (src/index.tsx lines 203-213). -/
def finalizeAll (processed : Results) : Results :=
  processed.map (fun p => (p.1, finalizeItem p.2))

/-- `parseAndOrganizeData` (src/index.tsx lines 61-216). -/
def parseAndOrganizeData (rawData : String) : Results :=
  let rawLines := linesOf rawData
  let st := rawLines.foldl processLine ⟨[], []⟩
  finalizeAll (pivotPhase st.processed st.rawTableData)

/-- The temporary `rawTableData` as it stands when the per-line loop ends. -/
def rawTablesOf (rawData : String) : List (String × List (String × RawTable)) :=
  ((linesOf rawData).foldl processLine ⟨[], []⟩).rawTableData

/-- The item entry a finished report holds for `i`. -/
def itemOf (r : Results) (i : String) : Option ItemData := alGet r i

/-- The pivot table a finished report holds for item `i` and table `t`. -/
def pivotOf (r : Results) (i t : String) : Option PivotTableData :=
  (alGet r i).bind fun d => alGet d.pivotTables t

/-- The graph a finished report holds for item `i` and series `s`. -/
def graphOf (r : Results) (i s : String) : Option GraphData :=
  (alGet r i).bind fun d => alGet d.graphs s

/-- The `(timeRange, value)` pair a single line contributes to the graph of
`(itemName, seriesName)`: the line must split into exactly five fields, carry
the `"numero"` discriminator, name this item and series, and its value must
parse.  This mirrors the conditions of lines 83 and 95-98 of the source. -/
def numericTuple (itemName seriesName : String) (line : String) :
    Option (String × JsNum) :=
  let parts := splitFields line
  if parts.length < 5 then none
  else if fieldAt parts 2 = "numero" ∧ parts.length = 5 ∧
      fieldAt parts 1 = itemName ∧ fieldAt parts 3 = seriesName then
    (jsParseFloat (fieldAt parts 4)).map (fun v => (fieldAt parts 0, v))
  else none

/-- A line decodes to a valid record: at least five fields and either a
well-formed `"numero"` record (exactly five fields, parsable value) or a
well-formed `"tabla"` record (at least six fields, parsable key index ≥ 1). -/
def decodesLine (line : String) : Bool :=
  let parts := splitFields line
  decide (5 ≤ parts.length) &&
    ((fieldAt parts 2 == "numero" && parts.length == 5 &&
        (jsParseFloat (fieldAt parts 4)).isSome) ||
     (fieldAt parts 2 == "tabla" && decide (6 ≤ parts.length) &&
        (match jsParseInt (fieldAt parts 4) with
         | some k => decide (1 ≤ k)
         | none => false)))

/-! ### Association-list lemmas -/

theorem alGet_alSet_self {κ α : Type} [DecidableEq κ] (m : List (κ × α)) (k : κ) (v : α) :
    alGet (alSet m k v) k = some v := by
  induction m with
  | nil => simp [alGet, alSet]
  | cons p rest ih =>
    by_cases h : p.1 = k
    · simp [alGet, alSet, h]
    · simp [alGet, alSet, h, ih]

theorem alGet_alSet_ne {κ α : Type} [DecidableEq κ] (m : List (κ × α)) (k k' : κ) (v : α)
    (h : k' ≠ k) : alGet (alSet m k v) k' = alGet m k' := by
  induction m with
  | nil =>
    show alGet [(k, v)] k' = none
    simp only [alGet, if_neg (Ne.symm h)]
  | cons p rest ih =>
    by_cases hp : p.1 = k
    · have hpk : ¬ p.1 = k' := by rw [hp]; exact Ne.symm h
      simp only [alSet, if_pos hp, alGet, if_neg (Ne.symm h), if_neg hpk]
    · simp only [alSet, if_neg hp, alGet, ih]

theorem mem_alSet {κ α : Type} [DecidableEq κ] (m : List (κ × α)) (k : κ) (v : α)
    (p : κ × α) : p ∈ alSet m k v → p = (k, v) ∨ p ∈ m := by
  induction m with
  | nil => intro h; simpa [alSet] using h
  | cons q rest ih =>
    intro h
    by_cases hq : q.1 = k
    · simp only [alSet, if_pos hq, List.mem_cons] at h
      rcases h with h | h
      · exact Or.inl h
      · exact Or.inr (List.mem_cons_of_mem _ h)
    · simp only [alSet, if_neg hq, List.mem_cons] at h
      rcases h with h | h
      · exact Or.inr (by simp [h])
      · rcases ih h with h2 | h2
        · exact Or.inl h2
        · exact Or.inr (List.mem_cons_of_mem _ h2)

theorem alGet_mem {κ α : Type} [DecidableEq κ] (m : List (κ × α)) (k : κ) (v : α)
    (h : alGet m k = some v) : (k, v) ∈ m := by
  induction m with
  | nil => simp [alGet] at h
  | cons p rest ih =>
    by_cases hp : p.1 = k
    · simp only [alGet, if_pos hp, Option.some.injEq] at h
      have hpv : p = (k, v) := by
        obtain ⟨a, b⟩ := p
        simp only at hp h
        rw [hp, h]
      rw [← hpv]
      exact List.mem_cons_self _ _
    · simp only [alGet, if_neg hp] at h
      exact List.mem_cons_of_mem _ (ih h)

theorem alGet_eq_none {κ α : Type} [DecidableEq κ] (m : List (κ × α)) (k : κ)
    (h : k ∉ m.map Prod.fst) : alGet m k = none := by
  induction m with
  | nil => rfl
  | cons p rest ih =>
    simp only [List.map_cons, List.mem_cons] at h
    push_neg at h
    have h1 : ¬ p.1 = k := fun hh => h.1 hh.symm
    simp only [alGet, if_neg h1]
    exact ih h.2

theorem alSet_keys {κ α : Type} [DecidableEq κ] (m : List (κ × α)) (k : κ) (v : α) :
    (alSet m k v).map Prod.fst = if k ∈ m.map Prod.fst then m.map Prod.fst
      else m.map Prod.fst ++ [k] := by
  induction m with
  | nil => simp [alSet]
  | cons p rest ih =>
    by_cases hp : p.1 = k
    · simp [alSet, hp]
    · simp only [alSet, if_neg hp, List.map_cons, ih, List.mem_cons]
      by_cases hk : k ∈ rest.map Prod.fst
      · simp [hk]
      · have h2 : ¬ k = p.1 := fun hh => hp hh.symm
        simp [hk, h2]

theorem alSet_keys_nodup {κ α : Type} [DecidableEq κ] (m : List (κ × α)) (k : κ) (v : α)
    (h : (m.map Prod.fst).Nodup) : ((alSet m k v).map Prod.fst).Nodup := by
  rw [alSet_keys]
  by_cases hk : k ∈ m.map Prod.fst
  · simpa [hk]
  · simpa [hk, List.nodup_append] using h

theorem isSome_alGet_alSet {κ α : Type} [DecidableEq κ] (m : List (κ × α)) (k k' : κ) (v : α)
    (h : (alGet m k').isSome) : (alGet (alSet m k v) k').isSome := by
  by_cases hk : k' = k
  · subst hk
    simp [alGet_alSet_self]
  · rwa [alGet_alSet_ne _ _ _ _ hk]

theorem alGet_map_values {κ α β : Type} [DecidableEq κ] (m : List (κ × α)) (f : α → β) (k : κ) :
    alGet (m.map (fun p => (p.1, f p.2))) k = (alGet m k).map f := by
  induction m with
  | nil => rfl
  | cons p rest ih =>
    by_cases hp : p.1 = k
    · simp [alGet, hp]
    · simp [alGet, hp, ih]

/-! ### `initItem` lemmas -/

theorem alGet_initItem_self (pr : Results) (i : String) :
    alGet (initItem pr i) i = some ((alGet pr i).getD emptyItem) := by
  unfold initItem
  cases h : alGet pr i with
  | none => simp [h, alGet_alSet_self]
  | some d => simp [h]

theorem alGet_initItem_ne (pr : Results) (i i' : String) (h : i' ≠ i) :
    alGet (initItem pr i) i' = alGet pr i' := by
  unfold initItem
  split
  · rfl
  · exact alGet_alSet_ne _ _ _ _ h

theorem isSome_alGet_initItem (pr : Results) (i i' : String)
    (h : (alGet pr i').isSome) : (alGet (initItem pr i) i').isSome := by
  by_cases hi : i' = i
  · subst hi
    simp [alGet_initItem_self]
  · rwa [alGet_initItem_ne _ _ _ hi]

/-! ### Number lemmas -/

theorem jsZero_toRat : jsZero.toRat = 0 := by
  simp [jsZero, JsNum.toRat]

theorem JsNum.add_toRat (a b : JsNum) (ha : a.den ≠ 0) (hb : b.den ≠ 0) :
    (a.add b).toRat = a.toRat + b.toRat := by
  unfold JsNum.toRat JsNum.add
  have ha2 : (a.den : ℚ) ≠ 0 := by exact_mod_cast ha
  have hb2 : (b.den : ℚ) ≠ 0 := by exact_mod_cast hb
  push_cast
  field_simp

theorem JsNum.add_den_ne_zero (a b : JsNum) (ha : a.den ≠ 0) (hb : b.den ≠ 0) :
    (a.add b).den ≠ 0 := by
  simp [JsNum.add, Nat.mul_ne_zero ha hb]

theorem jsParseFloat_den_ne_zero (s : String) (q : JsNum) (h : jsParseFloat s = some q) :
    q.den ≠ 0 := by
  simp only [jsParseFloat] at h
  split at h
  · exact absurd h (by simp)
  · split at h
    · simp only [Option.some.injEq] at h
      rw [← h]
      simp
    · simp only [Option.some.injEq] at h
      rw [← h]
      simp [pow_ne_zero]

theorem jsParseFloatOr0_den_ne_zero (o : Option String) : (jsParseFloatOr0 o).den ≠ 0 := by
  cases o with
  | none => simp [jsParseFloatOr0, jsZero]
  | some s =>
    show ((jsParseFloat s).getD jsZero).den ≠ 0
    cases h : jsParseFloat s with
    | none => simp [jsZero]
    | some q => simpa using jsParseFloat_den_ne_zero s q h

/-! ### Stable sort permutation -/

theorem insertLe_perm {α : Type} (le : α → α → Bool) (x : α) (l : List α) :
    List.Perm (insertLe le x l) (x :: l) := by
  induction l with
  | nil => simp [insertLe]
  | cons y ys ih =>
    simp only [insertLe]
    split
    · exact List.Perm.refl _
    · exact List.Perm.trans (List.Perm.cons y ih) (List.Perm.swap x y ys)

theorem insertionSort_perm {α : Type} (le : α → α → Bool) (l : List α) :
    List.Perm (insertionSort le l) l := by
  induction l with
  | nil => exact List.Perm.refl _
  | cons x xs ih =>
    exact List.Perm.trans (insertLe_perm le x (insertionSort le xs)) (List.Perm.cons x ih)

/-! ### Summation lemmas for the pivot invariant -/

theorem sum_if_mem (S : List String) (k : String) (c : ℚ) (g : String → ℚ)
    (hS : S.Nodup) (hk : k ∈ S) (hg : g k = 0) :
    (S.map (fun tr => if k = tr then c else g tr)).sum = c + (S.map g).sum := by
  induction S with
  | nil => cases hk
  | cons s0 S2 ih =>
    rcases List.mem_cons.mp hk with h0 | h0
    · subst h0
      have hnot : k ∉ S2 := (List.nodup_cons.mp hS).1
      have heq : S2.map (fun tr => if k = tr then c else g tr) = S2.map g := by
        apply List.map_congr_left
        intro tr htr
        have : ¬ k = tr := fun hh => hnot (hh ▸ htr)
        simp [this]
      simp [heq, hg, add_comm]
    · have hne : ¬ k = s0 := by
        intro hh
        subst hh
        exact (List.nodup_cons.mp hS).1 h0
      simp only [List.map_cons, List.sum_cons, if_neg hne,
        ih (List.nodup_cons.mp hS).2 h0]
      ring

theorem sum_lookup (td : List (String × JsNum)) (S : List String)
    (hS : S.Nodup) (hsub : ∀ k ∈ td.map Prod.fst, k ∈ S)
    (hnd : (td.map Prod.fst).Nodup) :
    (S.map (fun tr => ((alGet td tr).getD jsZero).toRat)).sum =
      (td.map (fun c => c.2.toRat)).sum := by
  induction td with
  | nil =>
    simp only [List.map_nil, List.sum_nil]
    have : S.map (fun tr => ((alGet ([] : List (String × JsNum)) tr).getD jsZero).toRat) =
        S.map (fun _ => (0 : ℚ)) := by
      apply List.map_congr_left
      intro tr _
      simp [alGet, jsZero_toRat]
    rw [this]
    simp
  | cons p rest ih =>
    simp only [List.map_cons, List.mem_cons] at hsub hnd
    have hks : p.1 ∈ S := hsub p.1 (Or.inl rfl)
    have hrest : ∀ k ∈ rest.map Prod.fst, k ∈ S := fun k hk => hsub k (Or.inr hk)
    have hnotrest : p.1 ∉ rest.map Prod.fst := (List.nodup_cons.mp hnd).1
    have hgk : ((alGet rest p.1).getD jsZero).toRat = 0 := by
      rw [alGet_eq_none rest p.1 hnotrest]
      simp [jsZero_toRat]
    have hmap : S.map (fun tr => ((alGet (p :: rest) tr).getD jsZero).toRat) =
        S.map (fun tr => if p.1 = tr then p.2.toRat
          else ((alGet rest tr).getD jsZero).toRat) := by
      apply List.map_congr_left
      intro tr _
      by_cases htr : p.1 = tr
      · simp [alGet, htr]
      · simp [alGet, htr]
    rw [hmap, sum_if_mem S p.1 p.2.toRat _ hS hks hgk,
      ih hrest (List.nodup_cons.mp hnd).2]
    simp

theorem sum_alSet_timeData (td : List (String × JsNum)) (tr : String) (v : JsNum)
    (hnd : (td.map Prod.fst).Nodup) (hv : v.den ≠ 0)
    (hwf : ∀ c ∈ td, c.2.den ≠ 0) :
    ((alSet td tr (((alGet td tr).getD jsZero).add v)).map (fun c => c.2.toRat)).sum =
      (td.map (fun c => c.2.toRat)).sum + v.toRat := by
  induction td with
  | nil =>
    simp [alSet, alGet, JsNum.add_toRat jsZero v (by simp [jsZero]) hv, jsZero_toRat]
  | cons p rest ih =>
    by_cases hp : p.1 = tr
    · have hpwf : p.2.den ≠ 0 := hwf p (List.mem_cons_self _ _)
      simp only [alGet, if_pos hp, alSet, Option.getD_some, List.map_cons, List.sum_cons,
        JsNum.add_toRat p.2 v hpwf hv]
      ring
    · simp only [alGet, if_neg hp, alSet, List.map_cons, List.sum_cons]
      rw [ih (List.nodup_cons.mp hnd).2 (fun c hc => hwf c (List.mem_cons_of_mem _ hc))]
      ring

/-! ### Pivot aggregation invariant -/

/-- Well-formedness of one aggregation entry relative to the time-range set:
cell keys are distinct and drawn from the set, all numbers have nonzero
denominators, and the running total is the rational sum of the cells. -/
def EntryInv (allTR : List String) (e : AggEntry) : Prop :=
  (e.timeData.map Prod.fst).Nodup ∧
  (∀ k ∈ e.timeData.map Prod.fst, k ∈ allTR) ∧
  e.total.den ≠ 0 ∧
  (∀ c ∈ e.timeData, c.2.den ≠ 0) ∧
  e.total.toRat = (e.timeData.map (fun c => c.2.toRat)).sum

/-- Invariant of the aggregation fold state. -/
def AggInv (acc : List (Option String × AggEntry) × List String) : Prop :=
  acc.2.Nodup ∧ ∀ p ∈ acc.1, EntryInv acc.2 p.2

theorem entryInv_mono (allTR allTR2 : List String) (e : AggEntry)
    (hsub : ∀ k ∈ allTR, k ∈ allTR2) (h : EntryInv allTR e) : EntryInv allTR2 e :=
  ⟨h.1, fun k hk => hsub k (h.2.1 k hk), h.2.2.1, h.2.2.2.1, h.2.2.2.2⟩

theorem entryInv_fresh (allTR : List String) (other : List String) :
    EntryInv allTR ⟨other, jsZero, []⟩ := by
  refine ⟨by simp, by simp, by simp [jsZero], by simp, ?_⟩
  simp [jsZero_toRat]

theorem cell_den_ne_zero (e : AggEntry) (tr : String)
    (hwf : ∀ c ∈ e.timeData, c.2.den ≠ 0) :
    ((alGet e.timeData tr).getD jsZero).den ≠ 0 := by
  cases h : alGet e.timeData tr with
  | none => simp [jsZero]
  | some c =>
    simpa using hwf (tr, c) (alGet_mem _ _ _ h)

theorem entryInv_bump (allTR allTR2 : List String) (e : AggEntry) (tr : String) (v : JsNum)
    (hsub : ∀ k ∈ allTR, k ∈ allTR2) (htr : tr ∈ allTR2) (hv : v.den ≠ 0)
    (h : EntryInv allTR e) : EntryInv allTR2 (bumpEntry e tr v) := by
  obtain ⟨hnd, hkeys, hden, hwf, hsum⟩ := h
  simp only [bumpEntry, EntryInv]
  refine ⟨?_, ?_, ?_, ?_, ?_⟩
  · exact alSet_keys_nodup _ _ _ hnd
  · intro k hk
    rw [alSet_keys] at hk
    by_cases hmem : tr ∈ e.timeData.map Prod.fst
    · rw [if_pos hmem] at hk
      exact hsub k (hkeys k hk)
    · rw [if_neg hmem] at hk
      rcases List.mem_append.mp hk with hk2 | hk2
      · exact hsub k (hkeys k hk2)
      · rw [List.mem_singleton.mp hk2]
        exact htr
  · exact JsNum.add_den_ne_zero _ _ hden hv
  · intro c hc
    rcases mem_alSet _ _ _ _ hc with hc2 | hc2
    · rw [hc2]
      exact JsNum.add_den_ne_zero _ _ (cell_den_ne_zero e tr hwf) hv
    · exact hwf c hc2
  · show (e.total.add v).toRat = _
    rw [JsNum.add_toRat _ _ hden hv, hsum]
    exact (sum_alSet_timeData e.timeData tr v hnd hv hwf).symm

theorem addTimeRange_subset (allTR : List String) (tr : String) :
    ∀ k ∈ allTR, k ∈ addTimeRange allTR tr := by
  intro k hk
  unfold addTimeRange
  split
  · exact hk
  · exact List.mem_append_left _ hk

theorem mem_addTimeRange (allTR : List String) (tr : String) :
    tr ∈ addTimeRange allTR tr := by
  unfold addTimeRange
  split
  · assumption
  · simp

theorem addTimeRange_nodup (allTR : List String) (tr : String)
    (h : allTR.Nodup) : (addTimeRange allTR tr).Nodup := by
  unfold addTimeRange
  split
  · exact h
  · next hmem =>
      rw [List.nodup_append]
      refine ⟨h, List.nodup_singleton _, ?_⟩
      intro a ha hb
      rw [List.mem_singleton.mp hb] at ha
      exact hmem ha

theorem aggInv_step (gIdx vIdx : Nat) (acc : List (Option String × AggEntry) × List String)
    (row : TableRow) (h : AggInv acc) : AggInv (pivotRowStep gIdx vIdx acc row) := by
  obtain ⟨hTR, hE⟩ := h
  show AggInv
    (alSet (ensureEntry acc.1 row.columns[gIdx]? (otherCols gIdx vIdx row.columns))
      row.columns[gIdx]?
      (bumpEntry
        ((alGet (ensureEntry acc.1 row.columns[gIdx]? (otherCols gIdx vIdx row.columns))
          row.columns[gIdx]?).getD ⟨otherCols gIdx vIdx row.columns, jsZero, []⟩)
        row.timeRange (jsParseFloatOr0 row.columns[vIdx]?)),
     addTimeRange acc.2 row.timeRange)
  have hsub := addTimeRange_subset acc.2 row.timeRange
  have htr := mem_addTimeRange acc.2 row.timeRange
  have hv := jsParseFloatOr0_den_ne_zero row.columns[vIdx]?
  have hE1 : ∀ p ∈ ensureEntry acc.1 row.columns[gIdx]? (otherCols gIdx vIdx row.columns),
      EntryInv acc.2 p.2 := by
    intro p hp
    unfold ensureEntry at hp
    split at hp
    · exact hE p hp
    · rcases mem_alSet _ _ _ _ hp with hp2 | hp2
      · rw [hp2]
        exact entryInv_fresh _ _
      · exact hE p hp2
  have hEget : EntryInv acc.2
      ((alGet (ensureEntry acc.1 row.columns[gIdx]? (otherCols gIdx vIdx row.columns))
        row.columns[gIdx]?).getD ⟨otherCols gIdx vIdx row.columns, jsZero, []⟩) := by
    cases hg : alGet (ensureEntry acc.1 row.columns[gIdx]? (otherCols gIdx vIdx row.columns))
        row.columns[gIdx]? with
    | none => exact entryInv_fresh _ _
    | some e0 =>
      simpa using hE1 _ (alGet_mem _ _ _ hg)
  constructor
  · exact addTimeRange_nodup _ _ hTR
  · intro p hp
    rcases mem_alSet _ _ _ _ hp with hp2 | hp2
    · rw [hp2]
      exact entryInv_bump _ _ _ _ _ hsub htr hv hEget
    · exact entryInv_mono _ _ _ hsub (hE1 p hp2)

theorem aggInv_fold (gIdx vIdx : Nat) (rows : List TableRow)
    (acc : List (Option String × AggEntry) × List String) (h : AggInv acc) :
    AggInv (rows.foldl (pivotRowStep gIdx vIdx) acc) := by
  induction rows generalizing acc with
  | nil => exact h
  | cons r rest ih => exact ih _ (aggInv_step gIdx vIdx acc r h)

theorem aggInv_init : AggInv ([], []) := by
  constructor
  · exact List.nodup_nil
  · intro p hp
    cases hp

/-! ### Shape of an emitted pivot table -/

theorem textColsAux_length (gIdx : Nat) (gv : JsVal) (other : List String) :
    ∀ (rem i counter : Nat), (textColsAux gIdx gv other i counter rem).length = rem := by
  intro rem
  induction rem with
  | zero => intro i counter; rfl
  | succ n ih =>
    intro i counter
    unfold textColsAux
    split
    · simp [ih]
    · simp [ih]

theorem buildTextColumns_length (gIdx : Nat) (gv : JsVal) (other : List String)
    (numText : Nat) : (buildTextColumns gIdx gv other numText).length = numText :=
  textColsAux_length gIdx gv other numText 0 0

theorem buildPivot_spec (tbl : RawTable) (pt : PivotTableData)
    (h : buildPivot tbl = some pt) :
    ∃ (gIdx vIdx : Nat),
      pt.headers =
        (List.range vIdx).map (fun i => "Column " ++ toString (i + 1)) ++ ["Total"] ++
          insertionSort hourLe (tbl.rows.foldl (pivotRowStep gIdx vIdx) ([], [])).2 ∧
      pt.rows = (tbl.rows.foldl (pivotRowStep gIdx vIdx) ([], [])).1.map (fun p =>
        (buildTextColumns gIdx (match p.1 with | some s => .str s | none => .undef)
            p.2.otherKeyColumns vIdx ++ [JsVal.num p.2.total] ++
          (insertionSort hourLe (tbl.rows.foldl (pivotRowStep gIdx vIdx) ([], [])).2).map
            (fun tr => JsVal.num ((alGet p.2.timeData tr).getD jsZero))).map
          jsValToString) := by
  simp only [buildPivot] at h
  split at h
  · cases h
  · next r0 rest heq =>
    split at h
    · cases h
    · obtain rfl := Option.some.inj h
      exact ⟨(tbl.keyIndex - 1).toNat, ((r0.columns.length : Int) - 1).toNat, rfl, rfl⟩

/-! ### Lookup characterization of the pivoting and finalization phases -/

theorem pivotOf_applyPivot (pr : Results) (iN tN : String) (tbl : RawTable)
    (i t : String) :
    pivotOf (applyPivot pr iN tN tbl) i t =
      if i = iN ∧ t = tN then
        match buildPivot tbl with
        | some pt => some pt
        | none => pivotOf pr i t
      else pivotOf pr i t := by
  unfold applyPivot
  cases hb : buildPivot tbl with
  | none => simp
  | some pt =>
    by_cases hi : i = iN
    · subst hi
      unfold pivotOf
      rw [alGet_alSet_self]
      by_cases ht : t = tN
      · subst ht
        simp [alGet_alSet_self]
      · simp only [ht, and_false, if_false, Option.some_bind]
        rw [alGet_alSet_ne _ _ _ _ ht]
        cases hd : alGet pr i with
        | none => simp [emptyItem, alGet]
        | some d => simp
    · unfold pivotOf
      rw [alGet_alSet_ne _ _ _ _ hi]
      simp [hi]

theorem graphOf_applyPivot (pr : Results) (iN tN : String) (tbl : RawTable)
    (i s : String) :
    graphOf (applyPivot pr iN tN tbl) i s = graphOf pr i s := by
  unfold applyPivot
  cases hb : buildPivot tbl with
  | none => rfl
  | some pt =>
    by_cases hi : i = iN
    · subst hi
      unfold graphOf
      rw [alGet_alSet_self]
      cases hd : alGet pr i with
      | none => simp [emptyItem, alGet]
      | some d => simp
    · unfold graphOf
      rw [alGet_alSet_ne _ _ _ _ hi]

theorem pivotOf_tablesFold (tables : List (String × RawTable)) (pr : Results)
    (iN : String) (i t : String) (hnd : (tables.map Prod.fst).Nodup) :
    pivotOf (tables.foldl (fun pr2 q => applyPivot pr2 iN q.1 q.2) pr) i t =
      if i = iN then
        match (alGet tables t).bind buildPivot with
        | some pt => some pt
        | none => pivotOf pr i t
      else pivotOf pr i t := by
  induction tables generalizing pr with
  | nil => simp [alGet]
  | cons q rest ih =>
    simp only [List.foldl_cons]
    rw [ih _ (by simpa using (List.nodup_cons.mp (by simpa using hnd)).2)]
    by_cases hi : i = iN
    · subst hi
      by_cases ht : t = q.1
      · have hq : q.1 ∉ rest.map Prod.fst := (List.nodup_cons.mp (by simpa using hnd)).1
        rw [← ht] at hq
        rw [alGet_eq_none rest t hq]
        simp only [alGet, if_pos ht.symm, Option.none_bind, Option.some_bind, if_pos rfl]
        rw [pivotOf_applyPivot]
        simp [ht]
      · have h2 : ¬ q.1 = t := fun hh => ht hh.symm
        simp only [alGet, if_neg h2, if_pos rfl]
        rw [pivotOf_applyPivot]
        simp only [ht, and_false, if_false]
    · simp only [if_neg hi]
      rw [pivotOf_applyPivot]
      simp only [hi, false_and, if_false]

theorem graphOf_tablesFold (tables : List (String × RawTable)) (pr : Results)
    (iN : String) (i s : String) :
    graphOf (tables.foldl (fun pr2 q => applyPivot pr2 iN q.1 q.2) pr) i s =
      graphOf pr i s := by
  induction tables generalizing pr with
  | nil => rfl
  | cons q rest ih =>
    simp only [List.foldl_cons]
    rw [ih, graphOf_applyPivot]

theorem pivotOf_pivotPhase (raw : List (String × List (String × RawTable))) (pr : Results)
    (i t : String) (hnd : (raw.map Prod.fst).Nodup)
    (hinner : ∀ p ∈ raw, (p.2.map Prod.fst).Nodup) :
    pivotOf (pivotPhase pr raw) i t =
      match (alGet raw i).bind (fun m => (alGet m t).bind buildPivot) with
      | some pt => some pt
      | none => pivotOf pr i t := by
  induction raw generalizing pr with
  | nil => simp [pivotPhase, alGet]
  | cons p rest ih =>
    simp only [pivotPhase, List.foldl_cons]
    rw [show List.foldl
        (fun pr2 p2 => p2.2.foldl (fun pr3 q => applyPivot pr3 p2.1 q.1 q.2) pr2)
        (p.2.foldl (fun pr2 q => applyPivot pr2 p.1 q.1 q.2) pr) rest =
      pivotPhase (p.2.foldl (fun pr2 q => applyPivot pr2 p.1 q.1 q.2) pr) rest from rfl]
    rw [ih _ (by simpa using (List.nodup_cons.mp (by simpa using hnd)).2)
      (fun q hq => hinner q (List.mem_cons_of_mem _ hq))]
    by_cases hi : i = p.1
    · have hp1 : p.1 ∉ rest.map Prod.fst := (List.nodup_cons.mp (by simpa using hnd)).1
      rw [← hi] at hp1
      rw [alGet_eq_none rest i hp1]
      simp only [alGet, if_pos hi.symm, Option.none_bind, Option.some_bind]
      rw [pivotOf_tablesFold _ _ _ _ _ (hinner p (List.mem_cons_self _ _))]
      rw [if_pos hi]
    · have h2 : ¬ p.1 = i := fun hh => hi hh.symm
      simp only [alGet, if_neg h2]
      rw [pivotOf_tablesFold _ _ _ _ _ (hinner p (List.mem_cons_self _ _))]
      rw [if_neg hi]

theorem graphOf_pivotPhase (raw : List (String × List (String × RawTable))) (pr : Results)
    (i s : String) :
    graphOf (pivotPhase pr raw) i s = graphOf pr i s := by
  induction raw generalizing pr with
  | nil => rfl
  | cons p rest ih =>
    simp only [pivotPhase, List.foldl_cons] at ih ⊢
    rw [ih, graphOf_tablesFold]

theorem alGet_finalizeAll (pr : Results) (i : String) :
    alGet (finalizeAll pr) i = (alGet pr i).map finalizeItem :=
  alGet_map_values pr finalizeItem i

theorem pivotOf_finalizeAll (pr : Results) (i t : String) :
    pivotOf (finalizeAll pr) i t = pivotOf pr i t := by
  unfold pivotOf
  rw [alGet_finalizeAll]
  cases alGet pr i with
  | none => rfl
  | some d => rfl

theorem graphOf_finalizeAll (pr : Results) (i s : String) :
    graphOf (finalizeAll pr) i s = (graphOf pr i s).map finalizeGraph := by
  unfold graphOf
  rw [alGet_finalizeAll]
  cases alGet pr i with
  | none => rfl
  | some d =>
    simp only [Option.map_some, Option.some_bind]
    show alGet (d.graphs.map (fun q => (q.1, finalizeGraph q.2))) s = _
    exact alGet_map_values d.graphs finalizeGraph s

/-! ### Invariants of the per-line parsing loop -/

/-- Well-formedness of the temporary `rawTableData`: item keys are distinct
and so are the table keys inside each item. -/
def RawWF (raw : List (String × List (String × RawTable))) : Prop :=
  (raw.map Prod.fst).Nodup ∧ ∀ p ∈ raw, (p.2.map Prod.fst).Nodup

/-- During the per-line loop no pivot table has been emitted yet. -/
def PivotsEmpty (pr : Results) : Prop := ∀ p ∈ pr, p.2.pivotTables = []

theorem pivotsEmpty_initItem (pr : Results) (i : String) (h : PivotsEmpty pr) :
    PivotsEmpty (initItem pr i) := by
  unfold initItem
  split
  · exact h
  · intro p hp
    rcases mem_alSet _ _ _ _ hp with hp2 | hp2
    · rw [hp2]
      rfl
    · exact h p hp2

theorem processLine_rawWF (st : ParseState) (line : String)
    (h : RawWF st.rawTableData) : RawWF (processLine st line).rawTableData := by
  simp only [processLine]
  split
  · exact h
  · split
    · split
      · exact h
      · exact h
    · split
      · split
        · exact h
        · split
          · exact h
          · refine ⟨alSet_keys_nodup _ _ _ h.1, ?_⟩
            intro p hp
            rcases mem_alSet _ _ _ _ hp with hp2 | hp2
            · rw [hp2]
              apply alSet_keys_nodup
              cases hg : alGet st.rawTableData (fieldAt (splitFields line) 1) with
              | none => simp [hg]
              | some m =>
                simp only [Option.getD_some]
                exact h.2 _ (alGet_mem _ _ _ hg)
            · exact h.2 p hp2
      · exact h

theorem processLine_pivotsEmpty (st : ParseState) (line : String)
    (h : PivotsEmpty st.processed) : PivotsEmpty (processLine st line).processed := by
  simp only [processLine]
  split
  · exact h
  · split
    · split
      · exact pivotsEmpty_initItem _ _ h
      · intro p hp
        rcases mem_alSet _ _ _ _ hp with hp2 | hp2
        · rw [hp2]
          show ((alGet (initItem st.processed (fieldAt (splitFields line) 1))
            (fieldAt (splitFields line) 1)).getD emptyItem).pivotTables = []
          rw [alGet_initItem_self]
          cases hg : alGet st.processed (fieldAt (splitFields line) 1) with
          | none => rfl
          | some d =>
            simp only [Option.getD_some]
            exact h (_, d) (alGet_mem _ _ _ hg)
        · exact pivotsEmpty_initItem _ _ h p hp2
    · split
      · split
        · exact pivotsEmpty_initItem _ _ h
        · split
          · exact pivotsEmpty_initItem _ _ h
          · exact pivotsEmpty_initItem _ _ h
      · exact pivotsEmpty_initItem _ _ h

/-! ### Effect of one line on one graph accumulator -/

/-- Append a tuple to a graph accumulator, creating the graph if absent
(src/index.tsx lines 99-104). -/
def pushTuple (g0 : Option GraphData) (t : String × JsNum) : GraphData :=
  { g0.getD emptyGraphData with tuples := (g0.getD emptyGraphData).tuples ++ [t] }

theorem graphOf_initItem (pr : Results) (i0 i s : String) :
    graphOf (initItem pr i0) i s = graphOf pr i s := by
  unfold graphOf
  by_cases hi : i = i0
  · subst hi
    rw [alGet_initItem_self]
    cases hg : alGet pr i with
    | none => simp [emptyItem, alGet]
    | some d => simp
  · rw [alGet_initItem_ne _ _ _ hi]

theorem graphOf_processLine (st : ParseState) (line : String) (i s : String) :
    graphOf (processLine st line).processed i s =
      match numericTuple i s line with
      | none => graphOf st.processed i s
      | some t => some (pushTuple (graphOf st.processed i s) t) := by
  by_cases h5 : (splitFields line).length < 5
  · simp only [processLine, numericTuple, if_pos h5]
  · by_cases hnum : fieldAt (splitFields line) 2 = "numero" ∧ (splitFields line).length = 5
    · cases hv : jsParseFloat (fieldAt (splitFields line) 4) with
      | none =>
        have hrhs : numericTuple i s line = none := by
          simp only [numericTuple, if_neg h5]
          split
          · next hc => simp [hv]
          · rfl
        rw [hrhs]
        simp only [processLine, if_neg h5, if_pos hnum, hv]
        exact graphOf_initItem _ _ _ _
      | some v =>
        by_cases his : fieldAt (splitFields line) 1 = i ∧ fieldAt (splitFields line) 3 = s
        · have hrhs : numericTuple i s line =
              some (fieldAt (splitFields line) 0, v) := by
            simp only [numericTuple, if_neg h5,
              if_pos (And.intro hnum.1 (And.intro hnum.2 (And.intro his.1 his.2))), hv]
            rfl
          rw [hrhs]
          simp only [processLine, if_neg h5, if_pos hnum, hv]
          unfold graphOf
          rw [his.1, alGet_alSet_self]
          simp only [Option.some_bind]
          rw [his.2, alGet_alSet_self, alGet_initItem_self]
          unfold pushTuple
          cases hd : alGet st.processed i with
          | none => simp [emptyItem, alGet]
          | some d => simp
        · have hrhs : numericTuple i s line = none := by
            simp only [numericTuple, if_neg h5]
            split
            · next hc => exact absurd (And.intro hc.2.2.1 hc.2.2.2) his
            · rfl
          rw [hrhs]
          simp only [processLine, if_neg h5, if_pos hnum, hv]
          unfold graphOf
          by_cases hi : fieldAt (splitFields line) 1 = i
          · rw [hi, alGet_alSet_self]
            simp only [Option.some_bind]
            have hs : ¬ fieldAt (splitFields line) 3 = s := fun hh => his ⟨hi, hh⟩
            rw [alGet_alSet_ne _ _ _ _ (fun hh => hs hh.symm), alGet_initItem_self]
            cases hd : alGet st.processed i with
            | none => simp [emptyItem, alGet]
            | some d => simp
          · rw [alGet_alSet_ne _ _ _ _ (fun hh : i = _ => hi hh.symm)]
            have := graphOf_initItem st.processed (fieldAt (splitFields line) 1) i s
            unfold graphOf at this
            exact this
    · have hrhs : numericTuple i s line = none := by
        simp only [numericTuple, if_neg h5]
        split
        · next hc => exact absurd (And.intro hc.1 hc.2.1) hnum
        · rfl
      rw [hrhs]
      simp only [processLine, if_neg h5, if_neg hnum]
      split
      · split
        · exact graphOf_initItem _ _ _ _
        · split
          · exact graphOf_initItem _ _ _ _
          · exact graphOf_initItem _ _ _ _
      · exact graphOf_initItem _ _ _ _

/-- Append a whole run of tuples to a graph accumulator. -/
def pushTuples (g0 : Option GraphData) (ts : List (String × JsNum)) : GraphData :=
  { g0.getD emptyGraphData with tuples := (g0.getD emptyGraphData).tuples ++ ts }

theorem graphOf_foldl (lines : List String) (st : ParseState) (i s : String) :
    graphOf (lines.foldl processLine st).processed i s =
      if lines.filterMap (numericTuple i s) = [] then graphOf st.processed i s
      else some (pushTuples (graphOf st.processed i s)
        (lines.filterMap (numericTuple i s))) := by
  induction lines generalizing st with
  | nil => simp
  | cons l rest ih =>
    simp only [List.foldl_cons, List.filterMap_cons]
    rw [ih (processLine st l)]
    rw [graphOf_processLine st l i s]
    cases ht : numericTuple i s l with
    | none => rfl
    | some t =>
      simp only [List.cons_ne_self, if_neg (List.cons_ne_nil t _)]
      by_cases hrest : rest.filterMap (numericTuple i s) = []
      · rw [if_pos hrest, hrest]
        unfold pushTuples pushTuple
        simp
      · rw [if_neg hrest]
        unfold pushTuples pushTuple
        simp

theorem graphOf_pipeline (rawData : String) (i s : String) :
    graphOf (parseAndOrganizeData rawData) i s =
      if (linesOf rawData).filterMap (numericTuple i s) = [] then none
      else some (finalizeGraph ⟨[], [],
        (linesOf rawData).filterMap (numericTuple i s)⟩) := by
  unfold parseAndOrganizeData
  rw [graphOf_finalizeAll, graphOf_pivotPhase, graphOf_foldl]
  have h0 : graphOf (⟨[], []⟩ : ParseState).processed i s = none := rfl
  rw [h0]
  by_cases hts : (linesOf rawData).filterMap (numericTuple i s) = []
  · rw [if_pos hts, if_pos hts]
    rfl
  · rw [if_neg hts, if_neg hts]
    unfold pushTuples
    simp [emptyGraphData]

theorem rawWF_foldl (lines : List String) (st : ParseState)
    (h : RawWF st.rawTableData) : RawWF ((lines.foldl processLine st).rawTableData) := by
  induction lines generalizing st with
  | nil => exact h
  | cons l rest ih => exact ih _ (processLine_rawWF st l h)

theorem pivotsEmpty_foldl (lines : List String) (st : ParseState)
    (h : PivotsEmpty st.processed) : PivotsEmpty ((lines.foldl processLine st).processed) := by
  induction lines generalizing st with
  | nil => exact h
  | cons l rest ih => exact ih _ (processLine_pivotsEmpty st l h)

theorem pivotOf_of_pivotsEmpty (pr : Results) (i t : String) (h : PivotsEmpty pr) :
    pivotOf pr i t = none := by
  unfold pivotOf
  cases hd : alGet pr i with
  | none => rfl
  | some d =>
    simp only [Option.some_bind]
    rw [h (i, d) (alGet_mem _ _ _ hd)]
    rfl

/-- Master correspondence: the pivot table the finished report holds for
`(i, t)` is exactly `buildPivot` applied to the table collected for `(i, t)`
in the temporary `rawTableData`. -/
theorem pivotOf_pipeline (rawData : String) (i t : String) :
    pivotOf (parseAndOrganizeData rawData) i t =
      (alGet (rawTablesOf rawData) i).bind (fun m => (alGet m t).bind buildPivot) := by
  unfold parseAndOrganizeData
  have hwf : RawWF (rawTablesOf rawData) :=
    rawWF_foldl (linesOf rawData) ⟨[], []⟩ ⟨List.nodup_nil, by intro p hp; cases hp⟩
  have hpe : PivotsEmpty (((linesOf rawData).foldl processLine ⟨[], []⟩).processed) :=
    pivotsEmpty_foldl (linesOf rawData) ⟨[], []⟩ (by intro p hp; cases hp)
  rw [pivotOf_finalizeAll,
    show (List.foldl processLine ⟨[], []⟩ (linesOf rawData)).rawTableData =
      rawTablesOf rawData from rfl,
    pivotOf_pivotPhase _ _ _ _ hwf.1 (fun p hp => hwf.2 p hp),
    pivotOf_of_pivotsEmpty _ _ _ hpe]
  cases (alGet (rawTablesOf rawData) i).bind (fun m => (alGet m t).bind buildPivot) with
  | none => rfl
  | some pt => rfl

theorem buildPivot_row_total (tbl : RawTable) (pt : PivotTableData)
    (h : buildPivot tbl = some pt) (row : List String) (hrow : row ∈ pt.rows) :
    ∃ (text : List String) (total : JsNum) (cells : List JsNum),
      row = text ++ [renderNum total] ++ cells.map renderNum ∧
      total.toRat = (cells.map JsNum.toRat).sum := by
  obtain ⟨gIdx, vIdx, hh, hr⟩ := buildPivot_spec tbl pt h
  rw [hr] at hrow
  obtain ⟨p, hp, hprow⟩ := List.mem_map.mp hrow
  obtain ⟨hTRnd, hE⟩ := aggInv_fold gIdx vIdx tbl.rows ([], []) aggInv_init
  obtain ⟨hnd, hkeys, hden, hwf, hsum⟩ := hE p hp
  refine ⟨(buildTextColumns gIdx (match p.1 with | some s2 => .str s2 | none => .undef)
      p.2.otherKeyColumns vIdx).map jsValToString, p.2.total,
    (insertionSort hourLe (tbl.rows.foldl (pivotRowStep gIdx vIdx) ([], [])).2).map
      (fun tr => (alGet p.2.timeData tr).getD jsZero), ?_, ?_⟩
  · rw [← hprow]
    simp only [List.map_append, List.map_map, List.map_cons, List.map_nil]
    rfl
  · have hperm := insertionSort_perm hourLe
      (tbl.rows.foldl (pivotRowStep gIdx vIdx) ([], [])).2
    have hndS := hperm.nodup_iff.mpr hTRnd
    have hsubS : ∀ k ∈ p.2.timeData.map Prod.fst,
        k ∈ insertionSort hourLe (tbl.rows.foldl (pivotRowStep gIdx vIdx) ([], [])).2 :=
      fun k hk => hperm.mem_iff.mpr (hkeys k hk)
    rw [hsum, List.map_map]
    exact (sum_lookup p.2.timeData _ hndS hsubS hnd).symm

theorem buildPivot_row_shape (tbl : RawTable) (pt : PivotTableData)
    (h : buildPivot tbl = some pt) (row : List String) (hrow : row ∈ pt.rows) :
    row.length = pt.headers.length ∧ ∃ nr : List JsVal, row = nr.map jsValToString := by
  obtain ⟨gIdx, vIdx, hh, hr⟩ := buildPivot_spec tbl pt h
  rw [hr] at hrow
  obtain ⟨p, hp, hprow⟩ := List.mem_map.mp hrow
  constructor
  · rw [← hprow, hh]
    simp [buildTextColumns_length]
  · exact ⟨_, hprow.symm⟩

/-! ### Support for the numeric-parse asymmetry claim -/

theorem otherColsAux_set (gIdx vIdx : Nat) (x : String) :
    ∀ (cs : List String) (i j : Nat), i + j = vIdx →
      otherColsAux gIdx vIdx i (cs.set j x) = otherColsAux gIdx vIdx i cs := by
  intro cs
  induction cs with
  | nil => intro i j _; rfl
  | cons c rest ih =>
    intro i j hij
    cases j with
    | zero =>
      have hi : i = vIdx := by omega
      simp only [List.set_cons_zero, otherColsAux, if_pos (Or.inr hi)]
    | succ j2 =>
      simp only [List.set_cons_succ, otherColsAux]
      rw [ih (i + 1) j2 (by omega)]

theorem otherCols_set (gIdx vIdx : Nat) (x : String) (cs : List String) :
    otherCols gIdx vIdx (cs.set vIdx x) = otherCols gIdx vIdx cs :=
  otherColsAux_set gIdx vIdx x cs 0 vIdx (by omega)

/-! ### Support for the malformed-input claim -/

/-- After the parse loop every item of a report built only from undecodable
lines is the empty item. -/
def AllEmpty (pr : Results) : Prop := ∀ p ∈ pr, p.2 = emptyItem

theorem allEmpty_initItem (pr : Results) (i : String) (h : AllEmpty pr) :
    AllEmpty (initItem pr i) := by
  unfold initItem
  split
  · exact h
  · intro p hp
    rcases mem_alSet _ _ _ _ hp with hp2 | hp2
    · rw [hp2]
    · exact h p hp2

theorem processLine_not_decoded (st : ParseState) (line : String)
    (hd : decodesLine line = false)
    (h : AllEmpty st.processed) :
    AllEmpty (processLine st line).processed ∧
      (processLine st line).rawTableData = st.rawTableData := by
  by_cases h5 : (splitFields line).length < 5
  · simp only [processLine, if_pos h5]
    exact ⟨h, by trivial⟩
  · by_cases hnum : fieldAt (splitFields line) 2 = "numero" ∧ (splitFields line).length = 5
    · cases hv : jsParseFloat (fieldAt (splitFields line) 4) with
      | none =>
        simp only [processLine, if_neg h5, if_pos hnum, hv]
        exact ⟨allEmpty_initItem _ _ h, by trivial⟩
      | some v =>
        exfalso
        have : decodesLine line = true := by
          simp only [decodesLine, Bool.and_eq_true, Bool.or_eq_true, decide_eq_true_eq,
            beq_iff_eq]
          refine ⟨by omega, Or.inl ⟨⟨hnum.1, by simpa using hnum.2⟩, by simp [hv]⟩⟩
        rw [this] at hd
        cases hd
    · by_cases htab : fieldAt (splitFields line) 2 = "tabla" ∧ 6 ≤ (splitFields line).length
      · cases hk : jsParseInt (fieldAt (splitFields line) 4) with
        | none =>
          simp only [processLine, if_neg h5, if_neg hnum, if_pos htab, hk]
          exact ⟨allEmpty_initItem _ _ h, by trivial⟩
        | some k =>
          by_cases hk1 : k < 1
          · simp only [processLine, if_neg h5, if_neg hnum, if_pos htab, hk, if_pos hk1]
            exact ⟨allEmpty_initItem _ _ h, by trivial⟩
          · exfalso
            have : decodesLine line = true := by
              simp only [decodesLine, Bool.and_eq_true, Bool.or_eq_true, decide_eq_true_eq,
                beq_iff_eq, hk]
              refine ⟨by omega, Or.inr ⟨⟨htab.1, htab.2⟩, by omega⟩⟩
            rw [this] at hd
            cases hd
      · simp only [processLine, if_neg h5, if_neg hnum, if_neg htab]
        exact ⟨allEmpty_initItem _ _ h, by trivial⟩

theorem foldl_not_decoded (lines : List String) (st : ParseState)
    (hd : ∀ l ∈ lines, decodesLine l = false)
    (h : AllEmpty st.processed) :
    AllEmpty ((lines.foldl processLine st).processed) ∧
      (lines.foldl processLine st).rawTableData = st.rawTableData := by
  induction lines generalizing st with
  | nil => exact ⟨h, rfl⟩
  | cons l rest ih =>
    obtain ⟨h1, h2⟩ := processLine_not_decoded st l (hd l (List.mem_cons_self _ _)) h
    obtain ⟨h3, h4⟩ := ih (processLine st l) (fun l2 hl2 => hd l2 (List.mem_cons_of_mem _ hl2)) h1
    refine ⟨h3, ?_⟩
    rw [List.foldl_cons, h4, h2]

/-! ### Support for the item-creation claim -/

theorem isSome_processLine (st : ParseState) (line : String) (k : String)
    (h : (alGet st.processed k).isSome) :
    (alGet (processLine st line).processed k).isSome := by
  simp only [processLine]
  split
  · exact h
  · split
    · split
      · exact isSome_alGet_initItem _ _ _ h
      · exact isSome_alGet_alSet _ _ _ _ (isSome_alGet_initItem _ _ _ h)
    · split
      · split
        · exact isSome_alGet_initItem _ _ _ h
        · split
          · exact isSome_alGet_initItem _ _ _ h
          · exact isSome_alGet_initItem _ _ _ h
      · exact isSome_alGet_initItem _ _ _ h

theorem isSome_processLine_self (st : ParseState) (line : String)
    (h5 : ¬ (splitFields line).length < 5) :
    (alGet (processLine st line).processed (fieldAt (splitFields line) 1)).isSome := by
  have hinit : ∀ pr : Results,
      (alGet (initItem pr (fieldAt (splitFields line) 1))
        (fieldAt (splitFields line) 1)).isSome := by
    intro pr
    rw [alGet_initItem_self]
    rfl
  simp only [processLine, if_neg h5]
  split
  · split
    · exact hinit _
    · exact isSome_alGet_alSet _ _ _ _ (hinit _)
  · split
    · split
      · exact hinit _
      · split
        · exact hinit _
        · exact hinit _
    · exact hinit _

theorem isSome_foldl (lines : List String) (st : ParseState) (k : String)
    (h : (alGet st.processed k).isSome) :
    (alGet ((lines.foldl processLine st).processed) k).isSome := by
  induction lines generalizing st with
  | nil => exact h
  | cons l rest ih => exact ih _ (isSome_processLine st l k h)

theorem isSome_applyPivot (pr : Results) (iN tN : String) (tbl : RawTable) (k : String)
    (h : (alGet pr k).isSome) : (alGet (applyPivot pr iN tN tbl) k).isSome := by
  unfold applyPivot
  cases buildPivot tbl with
  | none => exact h
  | some pt => exact isSome_alGet_alSet _ _ _ _ h

theorem isSome_tablesFold (tables : List (String × RawTable)) (pr : Results)
    (iN : String) (k : String) (h : (alGet pr k).isSome) :
    (alGet (tables.foldl (fun pr2 q => applyPivot pr2 iN q.1 q.2) pr) k).isSome := by
  induction tables generalizing pr with
  | nil => exact h
  | cons q rest ih => exact ih _ (isSome_applyPivot pr iN q.1 q.2 k h)

theorem isSome_pivotPhase (raw : List (String × List (String × RawTable))) (pr : Results)
    (k : String) (h : (alGet pr k).isSome) : (alGet (pivotPhase pr raw) k).isSome := by
  induction raw generalizing pr with
  | nil => exact h
  | cons p rest ih =>
    simp only [pivotPhase, List.foldl_cons] at ih ⊢
    exact ih _ (isSome_tablesFold p.2 pr p.1 k h)

theorem isSome_finalizeAll (pr : Results) (k : String) (h : (alGet pr k).isSome) :
    (alGet (finalizeAll pr) k).isSome := by
  rw [alGet_finalizeAll]
  cases hg : alGet pr k with
  | none => rw [hg] at h; cases h
  | some d => rfl

theorem pivotOf_some_buildPivot (rawData i t : String) (pt : PivotTableData)
    (h : pivotOf (parseAndOrganizeData rawData) i t = some pt) :
    ∃ tbl : RawTable, buildPivot tbl = some pt := by
  rw [pivotOf_pipeline] at h
  cases hm : alGet (rawTablesOf rawData) i with
  | none => rw [hm] at h; cases h
  | some m =>
    rw [hm] at h
    simp only [Option.some_bind] at h
    cases ht : alGet m t with
    | none => rw [ht] at h; cases h
    | some tbl =>
      rw [ht] at h
      simp only [Option.some_bind] at h
      exact ⟨tbl, h⟩

/-! ## Claim theorems -/

/-- C1: the claim says every decoded `"tabla"` record's row `{timeRange,
columns}` appears in the Report under `standardTables` keyed by the table
name.  The code never writes `standardTables`: for the single decoded table
record below, the row is collected in the temporary `rawTableData` and even
pivoted, yet the emitted item's `standardTables` is empty — the parse
function drops the collected rows instead of storing them, while the
rendering and export layers (src/index.tsx lines 558-581 and 746-769) fully
consume `standardTables` and can never show anything. -/
theorem c1_standard_tables_never_populated :
    (itemOf (parseAndOrganizeData "08:00-09:00;Q1;tabla;Backlog;1;TeamA;5") "Q1").map
        ItemData.standardTables = some [] ∧
    (alGet (rawTablesOf "08:00-09:00;Q1;tabla;Backlog;1;TeamA;5") "Q1").bind
        (fun m => alGet m "Backlog") =
      some ⟨1, [⟨"08:00-09:00", ["TeamA", "5"]⟩]⟩ ∧
    pivotOf (parseAndOrganizeData "08:00-09:00;Q1;tabla;Backlog;1;TeamA;5") "Q1" "Backlog"
      ≠ none := by
  decide

/-- C2 counterexample: the line `"a;b;xxx;c;d"` fails to decode (five fields
but an unknown discriminator), yet the produced Report is not the empty
mapping — it contains an (all-empty) entry for item `"b"`, because
`initializeItem` runs before the discriminator is inspected. -/
theorem c2_counterexample :
    (linesOf "a;b;xxx;c;d").all (fun l => !decodesLine l) = true ∧
    parseAndOrganizeData "a;b;xxx;c;d" = [("b", emptyItem)] := by
  decide

/-- C2 (amended): if every non-blank line of the input fails to decode to a
valid record, the produced Report contains no data — every item entry it
holds (one is still created for each line with at least five fields) has
empty graphs, empty standardTables and empty pivotTables. -/
theorem c2_amended_malformed_input (rawData : String)
    (h : ∀ l ∈ linesOf rawData, decodesLine l = false) :
    ∀ p ∈ parseAndOrganizeData rawData, p.2 = emptyItem := by
  simp only [parseAndOrganizeData]
  obtain ⟨h1, h2⟩ := foldl_not_decoded (linesOf rawData) ⟨[], []⟩ h
    (by intro p hp; cases hp)
  rw [h2]
  simp only [pivotPhase, List.foldl_nil]
  intro p hp
  obtain ⟨q, hq, hqp⟩ := List.mem_map.mp hp
  rw [← hqp, h1 q hq]
  rfl

theorem c2_amended_malformed_input_witness :
    (∀ l ∈ linesOf "a;b;xxx;c;d", decodesLine l = false) ∧
    ∀ p ∈ parseAndOrganizeData "a;b;xxx;c;d", p.2 = emptyItem :=
  ⟨by decide, c2_amended_malformed_input "a;b;xxx;c;d" (by decide)⟩

/-- C3: the three-line example input produces, for item `Q1`, the pivot table
`Backlog` with headers `["Column 1","Total","08:00-09:00","09:00-10:00"]` and
rows `[["TeamA","8","5","3"],["TeamB","7","7","0"]]`, in that order. -/
theorem c3_pivot_example :
    pivotOf (parseAndOrganizeData
        ("08:00-09:00;Q1;tabla;Backlog;1;TeamA;5\n" ++
         "09:00-10:00;Q1;tabla;Backlog;1;TeamA;3\n" ++
         "08:00-09:00;Q1;tabla;Backlog;1;TeamB;7")) "Q1" "Backlog" =
      some ⟨["Column 1", "Total", "08:00-09:00", "09:00-10:00"],
            [["TeamA", "8", "5", "3"], ["TeamB", "7", "7", "0"]]⟩ := by
  decide

/-- C4: in every pivot table the Report emits, every row consists of text
columns, a rendered `Total` cell, and rendered per-time-range cells, and the
number the `Total` cell renders equals the (exact, rational) sum of the
numbers the per-time-range cells render. -/
theorem c4_pivot_total_invariant (rawData i t : String) (pt : PivotTableData)
    (hpt : pivotOf (parseAndOrganizeData rawData) i t = some pt)
    (row : List String) (hrow : row ∈ pt.rows) :
    ∃ (text : List String) (total : JsNum) (cells : List JsNum),
      row = text ++ [renderNum total] ++ cells.map renderNum ∧
      total.toRat = (cells.map JsNum.toRat).sum := by
  obtain ⟨tbl, htbl⟩ := pivotOf_some_buildPivot rawData i t pt hpt
  exact buildPivot_row_total tbl pt htbl row hrow

theorem c4_pivot_total_invariant_witness :
    ∃ (text : List String) (total : JsNum) (cells : List JsNum),
      ["TeamA", "8", "5", "3"] = text ++ [renderNum total] ++ cells.map renderNum ∧
      total.toRat = (cells.map JsNum.toRat).sum :=
  c4_pivot_total_invariant
    ("08:00-09:00;Q1;tabla;Backlog;1;TeamA;5\n" ++
     "09:00-10:00;Q1;tabla;Backlog;1;TeamA;3\n" ++
     "08:00-09:00;Q1;tabla;Backlog;1;TeamB;7") "Q1" "Backlog"
    ⟨["Column 1", "Total", "08:00-09:00", "09:00-10:00"],
      [["TeamA", "8", "5", "3"], ["TeamB", "7", "7", "0"]]⟩
    (by decide) ["TeamA", "8", "5", "3"] (by decide)

/-- C5: whenever the Report holds a graph for an item and series, its labels
and values have equal length and are exactly the unzipped stable sort, by
Time Ordering rank of the label, of the `(timeRange, value)` pairs of that
item/series' valid numeric records taken in input encounter order (rank ties
keep encounter order; nothing is deduplicated or merged); and the
spec's concrete round trip: time ranges `08:00, 07:00, 23:00, 05:00` with
values `1, 2, 3, 4` come out as labels `07:00, 08:00, 23:00, 05:00` with
values `2, 1, 3, 4`. -/
theorem c5_graph_stable_sort :
    (∀ (rawData i s : String) (g : GraphData),
      graphOf (parseAndOrganizeData rawData) i s = some g →
        g.labels.length = g.values.length ∧
        g.labels = (insertionSort (fun a b => hourLe a.1 b.1)
          ((linesOf rawData).filterMap (numericTuple i s))).map Prod.fst ∧
        g.values = (insertionSort (fun a b => hourLe a.1 b.1)
          ((linesOf rawData).filterMap (numericTuple i s))).map Prod.snd) ∧
    graphOf (parseAndOrganizeData
        ("08:00;I;numero;S;1\n07:00;I;numero;S;2\n" ++
         "23:00;I;numero;S;3\n05:00;I;numero;S;4")) "I" "S" =
      some ⟨["07:00", "08:00", "23:00", "05:00"],
        [⟨2, 1⟩, ⟨1, 1⟩, ⟨3, 1⟩, ⟨4, 1⟩], []⟩ := by
  constructor
  · intro rawData i s g hg
    rw [graphOf_pipeline] at hg
    split at hg
    · cases hg
    · obtain rfl := Option.some.inj hg
      refine ⟨?_, rfl, rfl⟩
      simp [finalizeGraph]
  · decide

theorem c5_graph_stable_sort_witness :
    (["07:00", "08:00", "23:00", "05:00"] : List String).length =
        ([⟨2, 1⟩, ⟨1, 1⟩, ⟨3, 1⟩, ⟨4, 1⟩] : List JsNum).length ∧
    (["07:00", "08:00", "23:00", "05:00"] : List String) =
      (insertionSort (fun a b => hourLe a.1 b.1)
        ((linesOf ("08:00;I;numero;S;1\n07:00;I;numero;S;2\n" ++
          "23:00;I;numero;S;3\n05:00;I;numero;S;4")).filterMap
            (numericTuple "I" "S"))).map Prod.fst ∧
    ([⟨2, 1⟩, ⟨1, 1⟩, ⟨3, 1⟩, ⟨4, 1⟩] : List JsNum) =
      (insertionSort (fun a b => hourLe a.1 b.1)
        ((linesOf ("08:00;I;numero;S;1\n07:00;I;numero;S;2\n" ++
          "23:00;I;numero;S;3\n05:00;I;numero;S;4")).filterMap
            (numericTuple "I" "S"))).map Prod.snd :=
  c5_graph_stable_sort.1
    ("08:00;I;numero;S;1\n07:00;I;numero;S;2\n23:00;I;numero;S;3\n05:00;I;numero;S;4")
    "I" "S"
    ⟨["07:00", "08:00", "23:00", "05:00"], [⟨2, 1⟩, ⟨1, 1⟩, ⟨3, 1⟩, ⟨4, 1⟩], []⟩
    (by decide)

/-- C6: a collected table whose 0-based grouping column index (first-seen key
index minus one) reaches or passes the value column index (the last column
index of the table's first row), or is negative, yields no pivot table for
that (item, table) pair; in particular a table record with key index `5` but
only four columns produces none. -/
theorem c6_pivot_skip_guard :
    (∀ (rawData i t : String) (tbl : RawTable) (r0 : TableRow) (rest : List TableRow),
      (alGet (rawTablesOf rawData) i).bind (fun m => alGet m t) = some tbl →
      tbl.rows = r0 :: rest →
      ((r0.columns.length : Int) - 1 ≤ tbl.keyIndex - 1 ∨ tbl.keyIndex - 1 < 0) →
      pivotOf (parseAndOrganizeData rawData) i t = none) ∧
    ((alGet (rawTablesOf "08:00-09:00;Q1;tabla;T;5;a;b;c;d") "Q1").bind
        (fun m => alGet m "T") =
      some ⟨5, [⟨"08:00-09:00", ["a", "b", "c", "d"]⟩]⟩ ∧
     pivotOf (parseAndOrganizeData "08:00-09:00;Q1;tabla;T;5;a;b;c;d") "Q1" "T" = none ∧
     (itemOf (parseAndOrganizeData "08:00-09:00;Q1;tabla;T;5;a;b;c;d") "Q1").isSome) := by
  constructor
  · intro rawData i t tbl r0 rest hget hrows hguard
    rw [pivotOf_pipeline]
    cases hm : alGet (rawTablesOf rawData) i with
    | none => rfl
    | some m =>
      rw [hm] at hget
      simp only [Option.some_bind] at hget ⊢
      rw [hget]
      simp only [Option.some_bind]
      simp only [buildPivot, hrows, if_pos hguard]
  · exact ⟨by decide, by decide, by decide⟩

theorem c6_pivot_skip_guard_witness :
    (alGet (rawTablesOf "09:00-10:00;QX;tabla;TX;3;u;v") "QX").bind
        (fun m => alGet m "TX") =
      some ⟨3, [⟨"09:00-10:00", ["u", "v"]⟩]⟩ ∧
    pivotOf (parseAndOrganizeData "09:00-10:00;QX;tabla;TX;3;u;v") "QX" "TX" = none :=
  ⟨by decide,
    c6_pivot_skip_guard.1 "09:00-10:00;QX;tabla;TX;3;u;v" "QX" "TX"
      ⟨3, [⟨"09:00-10:00", ["u", "v"]⟩]⟩ ⟨"09:00-10:00", ["u", "v"]⟩ []
      (by decide) (by decide) (by decide)⟩

/-- C7: the two numeric-parse failure policies are asymmetric.  A `"numero"`
line whose value string fails to parse is dropped outright: processing it
only ensures the item entry exists, contributing no data point to any graph.
A `"tabla"` row whose value column fails to parse is aggregated exactly as
if that column read `"0"`: a zero is added to its key's total and to its
(key, time range) cell. -/
theorem c7_numeric_parse_asymmetry :
    (∀ (st : ParseState) (line : String),
      (splitFields line).length = 5 →
      fieldAt (splitFields line) 2 = "numero" →
      jsParseFloat (fieldAt (splitFields line) 4) = none →
      processLine st line =
        { st with processed := initItem st.processed (fieldAt (splitFields line) 1) }) ∧
    (∀ (gIdx vIdx : Nat) (acc : List (Option String × AggEntry) × List String)
      (row : TableRow) (s : String),
      gIdx ≠ vIdx →
      row.columns[vIdx]? = some s →
      jsParseFloat s = none →
      pivotRowStep gIdx vIdx acc row =
        pivotRowStep gIdx vIdx acc ⟨row.timeRange, row.columns.set vIdx "0"⟩) := by
  constructor
  · intro st line hlen hnum hv
    have h5 : ¬ (splitFields line).length < 5 := by omega
    simp only [processLine, if_neg h5, if_pos (And.intro hnum hlen), hv]
  · intro gIdx vIdx acc row s hne hs hv
    have h1 : (row.columns.set vIdx "0")[gIdx]? = row.columns[gIdx]? :=
      List.getElem?_set_ne (Ne.symm hne)
    have hlt : vIdx < row.columns.length := (List.getElem?_eq_some.mp hs).1
    have h2 : (row.columns.set vIdx "0")[vIdx]? = some "0" :=
      List.getElem?_set_self hlt
    have h3 : jsParseFloatOr0 (some s) = jsZero := by
      simp [jsParseFloatOr0, hv]
    have h4 : jsParseFloatOr0 (some "0") = jsZero := by decide
    simp only [pivotRowStep, h1, h2, hs, h3, h4, otherCols_set]

theorem c7_numeric_parse_asymmetry_witness :
    (processLine ⟨[], []⟩ "a;b;numero;c;NaNtext" =
      { processed := initItem ([] : Results) "b", rawTableData := [] } ∧
     graphOf (processLine ⟨[], []⟩ "a;b;numero;c;NaNtext").processed "b" "c" = none) ∧
    pivotRowStep 0 1 ([], []) ⟨"08:00", ["k", "x"]⟩ =
      pivotRowStep 0 1 ([], []) ⟨"08:00", ["k", "0"]⟩ :=
  ⟨⟨c7_numeric_parse_asymmetry.1 ⟨[], []⟩ "a;b;numero;c;NaNtext"
      (by decide) (by decide) (by decide), by decide⟩,
    c7_numeric_parse_asymmetry.2 0 1 ([], []) ⟨"08:00", ["k", "x"]⟩ "x"
      (by decide) (by decide) (by decide)⟩

/-- C8: the Time Ordering rank: the empty string has rank 0; otherwise the
text before the first `:` is parsed as an integer hour and the rank is
`hour + 24` when `hour < 6`, else `hour`; in particular
`rank("05:00...") = 29`, `rank("06:00...") = 6`, `rank("23:00...") = 23`
and `rank("") = 0`. -/
theorem c8_sortable_hour_rank :
    getSortableHour "" = some 0 ∧
    (∀ (s2 : String) (h2 : Int), s2 ≠ "" →
      jsParseInt (String.mk ((splitOnChar ':' s2.data).headD [])) = some h2 →
      getSortableHour s2 = some (if h2 < 6 then h2 + 24 else h2)) ∧
    getSortableHour "05:00..." = some 29 ∧
    getSortableHour "06:00..." = some 6 ∧
    getSortableHour "23:00..." = some 23 := by
  refine ⟨by decide, ?_, by decide, by decide, by decide⟩
  intro s2 h2 hne hp
  simp only [getSortableHour, if_neg hne, hp]
  rfl

theorem c8_sortable_hour_rank_witness :
    ("05:00..." : String) ≠ "" ∧
    jsParseInt (String.mk ((splitOnChar ':' ("05:00..." : String).data).headD [])) =
      some 5 ∧
    getSortableHour "05:00..." = some (if (5 : Int) < 6 then 5 + 24 else 5) :=
  ⟨by decide, by decide,
    c8_sortable_hour_rank.2.1 "05:00..." 5 (by decide) (by decide)⟩

/-- C9: every row of every pivot table the Report emits has exactly as many
cells as the table's headers sequence, and is the cell-by-cell string
rendering of a row of JavaScript values. -/
theorem c9_pivot_row_shape (rawData i t : String) (pt : PivotTableData)
    (hpt : pivotOf (parseAndOrganizeData rawData) i t = some pt)
    (row : List String) (hrow : row ∈ pt.rows) :
    row.length = pt.headers.length ∧ ∃ nr : List JsVal, row = nr.map jsValToString := by
  obtain ⟨tbl, htbl⟩ := pivotOf_some_buildPivot rawData i t pt hpt
  exact buildPivot_row_shape tbl pt htbl row hrow

theorem c9_pivot_row_shape_witness :
    (["TeamB", "7", "7", "0"] : List String).length =
      (["Column 1", "Total", "08:00-09:00", "09:00-10:00"] : List String).length ∧
    ∃ nr : List JsVal, ["TeamB", "7", "7", "0"] = nr.map jsValToString :=
  c9_pivot_row_shape
    ("08:00-09:00;Q1;tabla;Backlog;1;TeamA;5\n" ++
     "09:00-10:00;Q1;tabla;Backlog;1;TeamA;3\n" ++
     "08:00-09:00;Q1;tabla;Backlog;1;TeamB;7") "Q1" "Backlog"
    ⟨["Column 1", "Total", "08:00-09:00", "09:00-10:00"],
      [["TeamA", "8", "5", "3"], ["TeamB", "7", "7", "0"]]⟩
    (by decide) ["TeamB", "7", "7", "0"] (by decide)

/-- C10: every non-blank line with at least five semicolon-separated fields
creates (or finds) a Report entry keyed by its second field, even when the
record is subsequently discarded; the entry always carries all three
category mappings (they are the fields of `ItemData`). -/
theorem c10_item_entry_always_created (rawData line : String)
    (hline : line ∈ linesOf rawData)
    (h5 : 5 ≤ (splitFields line).length) :
    ∃ d : ItemData,
      itemOf (parseAndOrganizeData rawData) (fieldAt (splitFields line) 1) = some d := by
  obtain ⟨l1, l2, hsplit⟩ := List.append_of_mem hline
  have hfold : (alGet ((linesOf rawData).foldl processLine ⟨[], []⟩).processed
      (fieldAt (splitFields line) 1)).isSome := by
    rw [hsplit, List.foldl_append, List.foldl_cons]
    exact isSome_foldl l2 _ _ (isSome_processLine_self _ line (by omega))
  have hfin : (alGet (parseAndOrganizeData rawData) (fieldAt (splitFields line) 1)).isSome := by
    simp only [parseAndOrganizeData]
    exact isSome_finalizeAll _ _ (isSome_pivotPhase _ _ _ hfold)
  obtain ⟨d, hd⟩ := Option.isSome_iff_exists.mp hfin
  exact ⟨d, hd⟩

theorem c10_item_entry_always_created_witness :
    ("a;b;xxx;c;d" : String) ∈ linesOf "a;b;xxx;c;d" ∧
    5 ≤ (splitFields "a;b;xxx;c;d").length ∧
    ∃ d : ItemData, itemOf (parseAndOrganizeData "a;b;xxx;c;d") "b" = some d :=
  ⟨by decide, by decide,
    c10_item_entry_always_created "a;b;xxx;c;d" "a;b;xxx;c;d" (by decide) (by decide)⟩
